import Mathlib

set_option maxRecDepth 4000

/-!
Verification of the TL-B serialization schema compiler
(`src/tlb_macro/src/lib.rs` together with the type declarations and leaf
encoders of `src/src/main.rs`).

The Rust system is a procedural-macro code generator: at compile time it
parses a comma-separated layout string attached to a product type (struct)
or to each variant of a sum type (enum) and generates a `serialize`
function that, at run time, emits an ordered list of directive strings.

Shallow embedding conventions:
* Rust strings are Lean `String`s; `str::split(',')`, `str::trim`,
  `str::starts_with` are re-implemented structurally over `List Char`
  (`splitOnComma`, `trimStr`, `startsWithStr`) with the same semantics on
  the ASCII inputs the claims concern.
* The compile phase (macro expansion) is a total Lean function returning
  `Except String _`; a Rust `panic!` / failed `assert!` / `expect`
  becomes `.error msg` with the message the Rust runtime would print.
* The run-time phase of a generated serializer is modelled by `execSteps`:
  the generated Rust code is a straight-line sequence of
  `result.push(<literal>)` and `result.append(serialize(&self.field))`
  statements mutating a `result` vector; a field's recursively produced
  serialization is supplied by an environment `env : String → List String`.
* `u64` arithmetic on the discriminant counter is modelled on `Nat` with
  explicit bound checks at the points the Rust code can overflow or fail
  (`base10_parse::<u64>` and `variant_index += 1`, the latter with
  debug-assertion semantics).
-/

/-- `true` exactly for the four ASCII whitespace characters; models the
whitespace stripped by `str::trim` on the ASCII layout strings in scope. -/
def isWhitespaceChar (c : Char) : Bool :=
  c = ' ' || c = '\t' || c = '\n' || c = '\r'

/-- Model of Rust `str::trim`: strip leading and trailing whitespace. -/
def trimStr (s : String) : String :=
  String.mk (((s.toList.dropWhile isWhitespaceChar).reverse.dropWhile isWhitespaceChar).reverse)

/-- Split a character list at every occurrence of `sep`; `acc` holds the
current piece reversed.  Like Rust `str::split`, consecutive separators and
an empty input produce empty pieces. -/
def splitCharAux (sep : Char) : List Char → List Char → List (List Char)
  | [], acc => [acc.reverse]
  | c :: rest, acc =>
    if c = sep then acc.reverse :: splitCharAux sep rest []
    else splitCharAux sep rest (c :: acc)

/-- Model of Rust `attr.split(",")`. -/
def splitOnComma (s : String) : List String :=
  (splitCharAux ',' s.toList []).map String.mk

/-- Model of Rust `str::starts_with`. -/
def startsWithStr (s pre : String) : Bool :=
  pre.toList.isPrefixOf s.toList

/-- Model of Rust byte slice `&t[1..]` on the ASCII token strings produced
by `#[repr(u32)]` and friends (drop the first character). -/
def strDrop1 (s : String) : String :=
  String.mk (s.toList.drop 1)

/-- `listContains pat hay`: does `pat` occur as a contiguous sublist of `hay`? -/
def listContains (pat : List Char) : List Char → Bool
  | [] => pat.isEmpty
  | c :: rest => pat.isPrefixOf (c :: rest) || listContains pat rest

/-- Does `pat` occur as a contiguous substring of `hay`?  Used to state
whether an error message "names" a field. -/
def strContains (hay pat : String) : Bool :=
  listContains pat.toList hay.toList

/-- Nonempty and all decimal digits. -/
def isDigits (l : List Char) : Bool :=
  !l.isEmpty && l.all (fun c => c.isDigit)

/-- Formalization of the spec's grammar for a well-formed literal-emission
segment: `u <integer-value> <width>bit`.  This definition follows the
words of the specification (not the source, which never validates this
shape); it is used only to state claim C9. -/
def wellFormedLiteralSegment (s : String) : Bool :=
  match splitCharAux ' ' s.toList [] with
  | [['u'], d1, d2] =>
    isDigits d1 &&
      (match d2.reverse with
       | 't' :: 'i' :: 'b' :: ds => isDigits ds.reverse
       | _ => false)
  | _ => false

/-! ### The VarUint ("coins") encoder

Embeds the `"__fundamental_varuint16"` branch of
`create_serialization_code` (src/tlb_macro/src/lib.rs lines 49-64):

    let value = self.0 as u128;
    let bytes_required = 128 / 8 - value.leading_zeros() / 8;
    assert!(bytes_required <= 15, "VarUint16 overflow");
    result = vec![format!("u {bytes_required} 4bit"),
                  format!("u {value} {}bit", bytes_required * 8)];
-/

/-- Number of significant binary digits of `n`, by fuelled halving; valid
whenever `n < 2 ^ fuel`. -/
def bitsLenAux : Nat → Nat → Nat
  | 0, _ => 0
  | fuel + 1, n => if n = 0 then 0 else bitsLenAux fuel (n / 2) + 1

/-- Bit length of a `u128` value. -/
def bitsLen (n : Nat) : Nat := bitsLenAux 128 n

/-- Model of Rust `u128::leading_zeros` (for `value < 2^128`). -/
def leadingZeros128 (value : Nat) : Nat := 128 - bitsLen value

/-- `bytes_required` as computed by the source: `128 / 8 - value.leading_zeros() / 8`. -/
def bytesRequired (value : Nat) : Nat :=
  128 / 8 - leadingZeros128 value / 8

/-- Run-time behaviour of the generated VarUint16 serializer body. -/
def varuintDirectives (value : Nat) : Except String (List String) :=
  if bytesRequired value ≤ 15 then
    .ok ["u " ++ toString (bytesRequired value) ++ " 4bit",
         "u " ++ toString value ++ " " ++ toString (bytesRequired value * 8) ++ "bit"]
  else .error "VarUint16 overflow"

/-! ### Layout directive parsing and the struct serializer generator -/

/-- One generated statement of a serialization plan: either
`result.push(<literal>)` or `result.append(serialize(&self.<field>))`. -/
inductive Step where
  | pushLit (s : String)
  | appendField (f : String)
deriving DecidableEq, Repr

/-- The code `create_serialization_code` generates: either the special
VarUint16 body (which overwrites `result`) or a statement list. -/
inductive SerCode where
  | varuint
  | steps (l : List Step)
deriving DecidableEq, Repr

/-- A Rust field list: named fields (with their names, in declaration
order) or unnamed tuple fields (their count). -/
inductive Fields where
  | named (names : List String)
  | unnamed (count : Nat)
deriving DecidableEq, Repr

/-- Classification of one trimmed layout segment
(src/tlb_macro/src/lib.rs lines 83-104): empty segments are skipped,
segments starting with `"u "` are pushed verbatim, anything else is looked
up in the field map — `&field_spans[part]` panics with the std
`HashMap` indexing message `"no entry found for key"` when absent. -/
def classifySegment (fields : List String) (t : String) : Except String (Option Step) :=
  if t = "" then .ok none
  else if startsWithStr t "u " then .ok (some (.pushLit t))
  else if t ∈ fields then .ok (some (.appendField t))
  else .error "no entry found for key"

/-- Pure description of which step (if any) a trimmed segment yields on
the success path of `classifySegment`. -/
def segStep (fields : List String) (t : String) : Option Step :=
  if t = "" then none
  else if startsWithStr t "u " then some (.pushLit t)
  else if t ∈ fields then some (.appendField t)
  else none

/-- Walk the comma-split parts in order (the `attr.split(",").map(...)`
loop), trimming each and classifying it. -/
def compileSegments (fields : List String) : List String → Except String (List Step)
  | [] => .ok []
  | p :: rest =>
    match classifySegment fields (trimStr p) with
    | .error e => .error e
    | .ok o =>
      match compileSegments fields rest with
      | .error e => .error e
      | .ok steps =>
        .ok (match o with
             | none => steps
             | some st => st :: steps)

/-- Embeds `create_serialization_code(attr, struct_fields, self_ref)`
(src/tlb_macro/src/lib.rs lines 45-114). -/
def createSerializationCode (attr : String) (sfields : Fields) (selfRef : Bool) :
    Except String SerCode :=
  if attr = "__fundamental_varuint16" then
    match sfields with
    | .named _ => .error "Fundamental VarUint16 struct must consist of unnamed fields"
    | .unnamed n =>
      if n = 1 then
        if selfRef then .ok .varuint
        else .error "assertion failed: self_ref"
      else .error "Fundamental VarUint16 struct must have exactly one field"
  else
    match sfields with
    | .unnamed _ => .error "For unambiguous parsing, normal structs must consist of named fields"
    | .named fnames =>
      match compileSegments fnames (splitOnComma attr) with
      | .error e => .error e
      | .ok steps => .ok (.steps steps)

/-- Run-time view of a serializable value: `num` is `self.0 as u128` (only
consulted by the VarUint16 body) and `env f` is the directive list produced
by recursively serializing field `f` (the `CellSerialize::serialize(&self.f)`
call of the generated code). -/
structure RValue where
  num : Nat
  env : String → List String

/-- Execute a generated statement list on the mutable `result` vector
(initial contents `acc`). -/
def execSteps (env : String → List String) : List String → List Step → List String
  | acc, [] => acc
  | acc, .pushLit s :: rest => execSteps env (acc ++ [s]) rest
  | acc, .appendField f :: rest => execSteps env (acc ++ env f) rest

/-- The ordered concatenation a statement list denotes: literals verbatim,
each field reference replaced by that field's own serialization. -/
def planOut (env : String → List String) : List Step → List String
  | [] => []
  | .pushLit s :: rest => s :: planOut env rest
  | .appendField f :: rest => env f ++ planOut env rest

/-- Run-time behaviour of a compiled code body starting from `result = vec![]`. -/
def runCode (c : SerCode) (v : RValue) : Except String (List String) :=
  match c with
  | .varuint => varuintDirectives v.num
  | .steps l => .ok (execSteps v.env [] l)

/-- The whole `#[tlb_serializable(attr)]` pipeline for a struct: compile
the layout, then run the generated `serialize` body on a value. -/
def tlbSerializableImpl (attr : String) (sfields : Fields) (v : RValue) :
    Except String (List String) :=
  match createSerializationCode attr sfields true with
  | .error e => .error e
  | .ok code => runCode code v

/-! ### The enum (sum-type) serializer generator

Embeds `tlb_enum_serializable` (src/tlb_macro/src/lib.rs lines 198-300).
-/

/-- The source's `TlbPrefix`: `Wanted(t)` carries the token string of the
`#[repr(..)]` argument (e.g. `"u32"`); `NotWanted` comes from the
`#[tlb_assert_unsafe(items_prefixes_nonoverlap)]` marker. -/
inductive TlbPrefixPolicy where
  | wanted (t : String)
  | notWanted
deriving DecidableEq, Repr

/-- An attribute on the enum item, as seen by the `input.attrs.retain`
scan: the argument tokens of a `#[tlb_assert_unsafe(...)]`, the argument
tokens of a `#[repr(...)]`, or any other attribute. -/
inductive EnumAttr where
  | assertAttr (tokens : String)
  | reprAttr (tokens : String)
  | otherAttr
deriving DecidableEq, Repr

/-- Is this attribute a `#[repr(...)]` policy signal? -/
def isReprSig : EnumAttr → Bool
  | .reprAttr _ => true
  | _ => false

/-- Is this attribute the recognised no-overlap assertion? -/
def isAssertSig : EnumAttr → Bool
  | .assertAttr a => a = "items_prefixes_nonoverlap"
  | _ => false

/-- The `input.attrs.retain` walk filling `need_prefix`
(src/tlb_macro/src/lib.rs lines 203-228): a second policy signal of either
kind trips an `assert!(need_prefix.is_none())`; an unrecognised assertion
is merely reported and skipped. -/
def scanTagPolicy : List EnumAttr → Option TlbPrefixPolicy →
    Except String (Option TlbPrefixPolicy)
  | [], acc => .ok acc
  | .assertAttr a :: rest, acc =>
    if a = "items_prefixes_nonoverlap" then
      match acc with
      | some _ => .error "assertion failed: need_prefix.is_none()"
      | none => scanTagPolicy rest (some .notWanted)
    else scanTagPolicy rest acc
  | .reprAttr t :: rest, acc =>
    match acc with
    | some _ => .error "Two #[repr] attributes on enum are not supported"
    | none => scanTagPolicy rest (some (.wanted t))
  | .otherAttr :: rest, acc => scanTagPolicy rest acc

/-- `need_prefix.expect("Don't know how to differentiate tags of the enum")`. -/
def determineTagPolicy (attrs : List EnumAttr) : Except String TlbPrefixPolicy :=
  match scanTagPolicy attrs none with
  | .error e => .error e
  | .ok none => .error "Don't know how to differentiate tags of the enum"
  | .ok (some p) => .ok p

/-- The explicit discriminant expression of a variant, as the macro's
`if let Some((_, Expr::Lit(idx))) = variant.discriminant` sees it:
an integer literal (with its arbitrary-precision value), some other
literal, or a non-literal expression such as a named constant. -/
inductive DiscrExpr where
  | litInt (n : Nat)
  | litOther
  | nonLit
deriving DecidableEq, Repr

/-- The integer-literal value of a discriminant expression, if it is one. -/
def discrLit : Option DiscrExpr → Option Nat
  | some (.litInt n) => some n
  | _ => none

/-- Discriminant handling (src/tlb_macro/src/lib.rs lines 250-255): only
an integer literal updates `variant_index`, via
`base10_parse::<u64>().unwrap()` which fails on values not fitting `u64`;
every other shape of discriminant is silently ignored. -/
def parseDiscr (counter : Nat) : Option DiscrExpr → Except String Nat
  | none => .ok counter
  | some (.litInt n) =>
    if n < 2 ^ 64 then .ok n
    else .error "called `Result::unwrap()` on an `Err` value"
  | some .litOther => .ok counter
  | some .nonLit => .ok counter

/-- One enum variant as the macro sees it: its name, its field list, its
optional explicit discriminant expression, and the argument tokens of its
`#[tlb_item_serializable(...)]` attribute (`none` when the attribute is
missing). -/
structure EnumVariant where
  vname : String
  vfields : Fields
  discr : Option DiscrExpr
  layout : Option String
deriving DecidableEq, Repr

/-- The per-variant compilation result: the discriminant baked into the
generated `store_tag` and the statement list of the variant's own layout. -/
structure VariantPlan where
  discr : Nat
  steps : List Step
deriving DecidableEq, Repr

/-- Does building `store_tag` slice an empty `#[repr()]` token string?
(`&t[1..]` panics on an empty string.) -/
def emptyWantedRepr : TlbPrefixPolicy → Bool
  | .wanted t => decide (t = "")
  | .notWanted => false

/-- Compile one variant at the current `variant_index` value `counter`,
returning its plan and the next counter value.  Mirrors the body of the
`variant_generators` closure: missing `#[tlb_item_serializable]` fails via
`expect`; the layout is compiled with `self_ref = false` (so the
fundamental-varuint branch is unreachable: its `assert!(self_ref)` fires
first); then the discriminant is parsed; `&t[1..]` would panic on an empty
repr token string; finally `variant_index += 1` is a checked `u64`
increment. -/
def compileVariant (pfx : TlbPrefixPolicy) (counter : Nat) (v : EnumVariant) :
    Except String (VariantPlan × Nat) :=
  match v.layout with
  | none => .error ("serialization definition for variant " ++ v.vname ++ " is required")
  | some l =>
    match createSerializationCode l v.vfields false with
    | .error e => .error e
    | .ok .varuint => .error "unreachable: varuint body requires self_ref"
    | .ok (.steps steps) =>
      match parseDiscr counter v.discr with
      | .error e => .error e
      | .ok d =>
        if emptyWantedRepr pfx then .error "byte index 1 is out of bounds"
        else if d + 1 < 2 ^ 64 then .ok (⟨d, steps⟩, d + 1)
        else .error "attempt to add with overflow"

/-- Compile all variants in declaration order, threading `variant_index`. -/
def compileVariants (pfx : TlbPrefixPolicy) (counter : Nat) :
    List EnumVariant → Except String (List VariantPlan)
  | [] => .ok []
  | v :: rest =>
    match compileVariant pfx counter v with
    | .error e => .error e
    | .ok (p, next) =>
      match compileVariants pfx next rest with
      | .error e => .error e
      | .ok ps => .ok (p :: ps)

/-- An enum item: its attribute list and its variants in declaration order. -/
structure EnumDesc where
  attrs : List EnumAttr
  variants : List EnumVariant
deriving DecidableEq, Repr

/-- The whole `#[tlb_enum_serializable]` compile phase: determine the tag
policy, then generate every variant's plan. -/
def tlbEnumSerializable (e : EnumDesc) :
    Except String (TlbPrefixPolicy × List VariantPlan) :=
  match determineTagPolicy e.attrs with
  | .error e => .error e
  | .ok pfx =>
    match compileVariants pfx 0 e.variants with
    | .error e => .error e
    | .ok plans => .ok (pfx, plans)

/-- The `store_tag` statements (src/tlb_macro/src/lib.rs lines 263-271):
under `Wanted(t)` a single push of `format!("u {} {}bit", d, &t[1..])`,
under `NotWanted` nothing. -/
def storeTag : TlbPrefixPolicy → Nat → List Step
  | .notWanted, _ => []
  | .wanted t, d => [.pushLit ("u " ++ toString d ++ " " ++ strDrop1 t ++ "bit")]

/-- Run-time body of the generated match arm for one variant:
`result = vec![]; { store_tag; store }`. -/
def serializeEnumVariant (pfx : TlbPrefixPolicy) (p : VariantPlan)
    (env : String → List String) : List String :=
  execSteps env [] (storeTag pfx p.discr ++ p.steps)

/-- The generated `serialize` dispatch: the value determines which variant
it holds (index `i` in declaration order), and that variant's arm runs. -/
def serializeEnum (pfx : TlbPrefixPolicy) (plans : List VariantPlan) (i : Nat)
    (env : String → List String) : Option (List String) :=
  (plans.get? i).map (fun p => serializeEnumVariant pfx p env)

/-! ### Spec-shaped reference definitions used in claim statements -/

/-- The declaration-order discriminant walk exactly as the specification
describes it: the counter starts at 0, an explicit literal resets it, and
otherwise the variant receives the running counter (previous discriminant
plus one). -/
def specDiscrs : Nat → List (Option Nat) → List Nat
  | _, [] => []
  | c, none :: rest => c :: specDiscrs (c + 1) rest
  | _, some n :: rest => n :: specDiscrs (n + 1) rest

/-- Guard under which the walk is strictly increasing: every explicit
discriminant literal is at least the running counter at its position
(always true for the first variant, and vacuously true when no variant
carries an explicit literal). -/
def discrOk : Nat → List (Option Nat) → Bool
  | _, [] => true
  | c, none :: rest => discrOk (c + 1) rest
  | c, some n :: rest => decide (c ≤ n) && discrOk (n + 1) rest

/-! ### Concrete schemas from `src/src/main.rs`, used by witnesses -/

/-- The `Boc` enum: `#[repr(u32)]`, variants `Empty{} = 0` with layout
`u 0 16bit` and `Normal{} = 0xb5eec792` with an empty layout. -/
def bocDesc : EnumDesc :=
  ⟨[.otherAttr, .reprAttr "u32"],
   [⟨"Empty", .named [], some (.litInt 0), some "u 0 16bit"⟩,
    ⟨"Normal", .named [], some (.litInt 0xb5eec792), some ""⟩]⟩

/-- A small sum type under the no-overlap assertion, shaped like
`CommonMsgInfo`: one variant with layout `u 0 1bit, x` over field `x`. -/
def nonoverlapDesc : EnumDesc :=
  ⟨[.assertAttr "items_prefixes_nonoverlap"],
   [⟨"int_msg_info", .named ["x"], none, some "u 0 1bit, x"⟩]⟩

/-- A `Wanted`-policy sum type whose second variant's explicit literal 0
collides with the auto-assigned discriminant 0 of the first variant. -/
def collideDesc : EnumDesc :=
  ⟨[.reprAttr "u8"],
   [⟨"A", .named [], none, some ""⟩,
    ⟨"B", .named [], some (.litInt 0), some ""⟩]⟩

/-- An enum whose single variant carries an explicit integer discriminant
literal not representable in `u64`. -/
def hugeLitDesc : EnumDesc :=
  ⟨[.reprAttr "u8"],
   [⟨"A", .named [], some (.litInt (2 ^ 64)), some ""⟩]⟩

/-- An environment assigning every field the one-element serialization
`[name]`; stands in for concrete recursive field output in witnesses. -/
def echoEnv : String → List String := fun f => [f]

/-! ## Helper lemmas -/

/-- Executing a statement list starting from `acc` appends the plan's
ordered output to `acc`. -/
theorem execSteps_eq (env : String → List String) (l : List Step) :
    ∀ acc, execSteps env acc l = acc ++ planOut env l := by
  induction l with
  | nil => intro acc; simp [execSteps, planOut]
  | cons st rest ih =>
    intro acc
    cases st with
    | pushLit s => simp [execSteps, planOut, ih, List.append_assoc]
    | appendField f => simp [execSteps, planOut, ih, List.append_assoc]

/-- Characterization of the fuelled bit length: for `n < 2 ^ fuel`,
`bitsLenAux fuel n ≤ k` iff `n < 2 ^ k`. -/
theorem bitsLenAux_le_iff :
    ∀ (fuel n : Nat), n < 2 ^ fuel → ∀ k, (bitsLenAux fuel n ≤ k ↔ n < 2 ^ k) := by
  intro fuel
  induction fuel with
  | zero =>
    intro n hn k
    have hn0 : n = 0 := by simpa using hn
    subst hn0
    simp [bitsLenAux]
  | succ fuel ih =>
    intro n hn k
    by_cases h0 : n = 0
    · subst h0
      simp [bitsLenAux]
    · simp only [bitsLenAux, if_neg h0]
      cases k with
      | zero =>
        simp only [pow_zero]
        omega
      | succ k =>
        have hd : n / 2 < 2 ^ fuel := by
          have he : (2:ℕ) ^ (fuel + 1) = 2 ^ fuel * 2 := by ring
          omega
        have h1 := ih (n / 2) hd k
        have he : (2:ℕ) ^ (k + 1) = 2 ^ k * 2 := by ring
        constructor
        · intro h
          have := h1.mp (by omega)
          omega
        · intro h
          have := h1.mpr (by omega)
          omega

/-- `bytesRequired` is monotonically characterised: it is at most `b` iff
the value fits in `b` bytes.  This makes it the minimal byte count. -/
theorem bytesRequired_le_iff {value : Nat} (h : value < 2 ^ 128) (b : Nat) :
    bytesRequired value ≤ b ↔ value < 256 ^ b := by
  have hL : ∀ k, bitsLen value ≤ k ↔ value < 2 ^ k :=
    bitsLenAux_le_iff 128 value h
  have hL128 : bitsLen value ≤ 128 := (hL 128).mpr h
  have h256 : (256:ℕ) ^ b = 2 ^ (8 * b) := by
    rw [pow_mul]; norm_num
  constructor
  · intro hb
    rw [h256]
    apply (hL (8 * b)).mp
    unfold bytesRequired leadingZeros128 at hb
    omega
  · intro hb
    rw [h256] at hb
    have := (hL (8 * b)).mpr hb
    unfold bytesRequired leadingZeros128
    omega

/-- A trimmed segment classifies successfully exactly as `segStep` says. -/
theorem classifySegment_ok {fields : List String} {t : String} {o : Option Step}
    (h : classifySegment fields t = .ok o) : segStep fields t = o := by
  unfold classifySegment at h
  unfold segStep
  split_ifs at h ⊢ <;> simp_all

/-- The only error `classifySegment` can produce is the std `HashMap`
indexing message. -/
theorem classifySegment_error {fields : List String} {t : String} {e : String}
    (h : classifySegment fields t = .error e) : e = "no entry found for key" := by
  unfold classifySegment at h
  split_ifs at h
  simp_all

/-- A segment that is nonempty, not `"u "`-prefixed, and not a declared
field name is rejected with the generic lookup message. -/
theorem classifySegment_bad {fields : List String} {t : String}
    (hne : t ≠ "") (hu : startsWithStr t "u " = false) (hnf : t ∉ fields) :
    classifySegment fields t = .error "no entry found for key" := by
  unfold classifySegment
  split_ifs <;> simp_all

/-- A segment classifies successfully iff it is empty, `"u "`-prefixed, or
a declared field name. -/
theorem classifySegment_ok_iff (fields : List String) (t : String) :
    (∃ o, classifySegment fields t = .ok o)
      ↔ (t = "" ∨ startsWithStr t "u " = true ∨ t ∈ fields) := by
  unfold classifySegment
  split_ifs <;> simp_all

/-- On success, the compiled step list is the in-order `filterMap` of the
trimmed segments. -/
theorem compileSegments_filterMap (fields : List String) :
    ∀ (parts : List String) (steps : List Step),
      compileSegments fields parts = .ok steps →
      steps = parts.filterMap (fun p => segStep fields (trimStr p)) := by
  intro parts
  induction parts with
  | nil =>
    intro steps h
    injection h with h
    simp [← h]
  | cons p rest ih =>
    intro steps h
    unfold compileSegments at h
    cases hc : classifySegment fields (trimStr p) with
    | error e => rw [hc] at h; exact Except.noConfusion h
    | ok o =>
      rw [hc] at h
      cases hr : compileSegments fields rest with
      | error e => rw [hr] at h; exact Except.noConfusion h
      | ok st =>
        rw [hr] at h
        injection h with h
        subst h
        have hseg := classifySegment_ok hc
        cases o with
        | none => simp [List.filterMap_cons, hseg, ih st hr]
        | some s => simp [List.filterMap_cons, hseg, ih st hr]

/-- A part list compiles successfully iff every trimmed part is empty,
`"u "`-prefixed, or a declared field name. -/
theorem compileSegments_ok_iff (fields : List String) :
    ∀ parts : List String,
      (∃ steps, compileSegments fields parts = .ok steps)
        ↔ ∀ p ∈ parts,
            trimStr p = "" ∨ startsWithStr (trimStr p) "u " = true ∨ trimStr p ∈ fields := by
  intro parts
  induction parts with
  | nil => simp [compileSegments]
  | cons p rest ih =>
    constructor
    · rintro ⟨steps, h⟩
      unfold compileSegments at h
      cases hc : classifySegment fields (trimStr p) with
      | error e => rw [hc] at h; exact Except.noConfusion h
      | ok o =>
        rw [hc] at h
        cases hr : compileSegments fields rest with
        | error e => rw [hr] at h; exact Except.noConfusion h
        | ok st =>
          intro q hq
          rcases List.mem_cons.mp hq with rfl | hq'
          · exact (classifySegment_ok_iff fields (trimStr q)).mp ⟨o, hc⟩
          · exact (ih.mp ⟨st, hr⟩) q hq'
    · intro hall
      obtain ⟨o, hc⟩ := (classifySegment_ok_iff fields (trimStr p)).mpr
        (hall p (List.mem_cons_self p rest))
      obtain ⟨st, hr⟩ := ih.mpr (fun q hq => hall q (List.mem_cons_of_mem p hq))
      cases o with
      | none => exact ⟨st, by unfold compileSegments; rw [hc, hr]⟩
      | some s => exact ⟨s :: st, by unfold compileSegments; rw [hc, hr]⟩

/-- Any part list containing an unresolvable segment fails with the
generic lookup message (the only failure `compileSegments` can produce). -/
theorem compileSegments_bad (fields : List String) :
    ∀ parts : List String,
      (∃ p ∈ parts, trimStr p ≠ "" ∧ startsWithStr (trimStr p) "u " = false
          ∧ trimStr p ∉ fields) →
      compileSegments fields parts = .error "no entry found for key" := by
  intro parts
  induction parts with
  | nil => rintro ⟨p, hp, -⟩; exact absurd hp (List.not_mem_nil p)
  | cons q rest ih =>
    rintro ⟨p, hp, hne, hu, hnf⟩
    rcases List.mem_cons.mp hp with rfl | hp'
    · have hb := classifySegment_bad hne hu hnf
      unfold compileSegments
      rw [hb]
    · cases hc : classifySegment fields (trimStr q) with
      | error e =>
        have := classifySegment_error hc
        unfold compileSegments
        rw [hc, this]
      | ok o =>
        have hrest := ih ⟨p, hp', hne, hu, hnf⟩
        unfold compileSegments
        rw [hc, hrest]

/-- On success, `parseDiscr` yields the explicit integer literal if there
is one, and otherwise the running counter. -/
theorem parseDiscr_ok {c : Nat} {o : Option DiscrExpr} {d : Nat}
    (h : parseDiscr c o = .ok d) : d = (discrLit o).getD c := by
  cases o with
  | none => injection h with h; simp [discrLit, ← h]
  | some de =>
    cases de with
    | litInt n =>
      have hdef : parseDiscr c (some (.litInt n))
          = if n < 2 ^ 64 then .ok n
            else .error "called `Result::unwrap()` on an `Err` value" := rfl
      rw [hdef] at h
      by_cases hn : n < 2 ^ 64
      · rw [if_pos hn] at h
        injection h with h
        simp [discrLit, ← h]
      · rw [if_neg hn] at h
        exact Except.noConfusion h
    | litOther => injection h with h; simp [discrLit, ← h]
    | nonLit => injection h with h; simp [discrLit, ← h]

/-- Inversion of a successful per-variant compilation: the plan's steps
come from the variant's own layout attribute, its discriminant is the
parsed one, and the counter advances by one. -/
theorem compileVariant_ok {pfx : TlbPrefixPolicy} {c : Nat} {v : EnumVariant}
    {p : VariantPlan} {next : Nat}
    (h : compileVariant pfx c v = .ok (p, next)) :
    (∃ l, v.layout = some l ∧
        createSerializationCode l v.vfields false = .ok (.steps p.steps))
    ∧ parseDiscr c v.discr = .ok p.discr ∧ next = p.discr + 1 := by
  unfold compileVariant at h
  split at h
  · exact Except.noConfusion h
  next l hl =>
    split at h
    · exact Except.noConfusion h
    · exact Except.noConfusion h
    next st hcode =>
      split at h
      · exact Except.noConfusion h
      next d hd =>
        split at h
        · exact Except.noConfusion h
        · split at h
          · injection h with h
            injection h with h1 h2
            subst h1
            subst h2
            exact ⟨⟨l, hl, hcode⟩, hd, rfl⟩
          · exact Except.noConfusion h

/-- On success, the compiled discriminants are exactly the walk the
specification describes, starting from the given counter. -/
theorem compileVariants_discrs (pfx : TlbPrefixPolicy) :
    ∀ (vs : List EnumVariant) (c : Nat) (ps : List VariantPlan),
      compileVariants pfx c vs = .ok ps →
      ps.map VariantPlan.discr = specDiscrs c (vs.map (fun v => discrLit v.discr)) := by
  intro vs
  induction vs with
  | nil =>
    intro c ps h
    injection h with h
    simp [← h, specDiscrs]
  | cons v rest ih =>
    intro c ps h
    unfold compileVariants at h
    split at h
    · exact Except.noConfusion h
    next p nxt hv =>
      split at h
      · exact Except.noConfusion h
      next ps' hr =>
        injection h with h
        subst h
        obtain ⟨-, hd, hn⟩ := compileVariant_ok hv
        have hd' := parseDiscr_ok hd
        subst hn
        cases hvd : discrLit v.discr with
        | none =>
          rw [hvd] at hd'
          simp only [Option.getD_none] at hd'
          subst hd'
          simp only [List.map_cons, hvd, specDiscrs]
          rw [ih _ _ hr]
        | some n =>
          rw [hvd] at hd'
          simp only [Option.getD_some] at hd'
          subst hd'
          simp only [List.map_cons, hvd, specDiscrs]
          rw [ih _ _ hr]

/-- On success, every plan's step list is the compilation of the matching
variant's own layout attribute. -/
theorem compileVariants_layout (pfx : TlbPrefixPolicy) :
    ∀ (vs : List EnumVariant) (c : Nat) (ps : List VariantPlan),
      compileVariants pfx c vs = .ok ps →
      ∀ (i : Nat) (v : EnumVariant) (p : VariantPlan),
        vs.get? i = some v → ps.get? i = some p →
        ∃ l, v.layout = some l ∧
          createSerializationCode l v.vfields false = .ok (.steps p.steps) := by
  intro vs
  induction vs with
  | nil => intro c ps h i v p hv hp; simp [List.get?] at hv
  | cons a rest ih =>
    intro c ps h i v p hv hp
    unfold compileVariants at h
    split at h
    · exact Except.noConfusion h
    next q nxt hcv =>
      split at h
      · exact Except.noConfusion h
      next ps' hr =>
        injection h with h
        subst h
        cases i with
        | zero =>
          simp only [List.get?] at hv hp
          injection hv with hv
          injection hp with hp
          subst hv; subst hp
          exact (compileVariant_ok hcv).1
        | succ i =>
          simp only [List.get?] at hv hp
          exact ih nxt ps' hr i v p hv hp

/-- Inversion of a successful whole-enum compilation. -/
theorem tlbEnum_ok {e : EnumDesc} {pfx : TlbPrefixPolicy} {plans : List VariantPlan}
    (h : tlbEnumSerializable e = .ok (pfx, plans)) :
    determineTagPolicy e.attrs = .ok pfx
    ∧ compileVariants pfx 0 e.variants = .ok plans := by
  unfold tlbEnumSerializable at h
  split at h
  · exact Except.noConfusion h
  next pfx' hd =>
    split at h
    · exact Except.noConfusion h
    next plans' hc =>
      injection h with h
      injection h with h1 h2
      subst h1; subst h2
      exact ⟨hd, hc⟩

/-- `tlbEnumSerializable` on an explicit descriptor, with the structure
projections reduced. -/
theorem tlbEnumSerializable_mk (attrs : List EnumAttr) (vs : List EnumVariant) :
    tlbEnumSerializable ⟨attrs, vs⟩
      = match determineTagPolicy attrs with
        | .error e => .error e
        | .ok pfx =>
          match compileVariants pfx 0 vs with
          | .error e => .error e
          | .ok plans => .ok (pfx, plans) := rfl

/-- Under the explicit-literal guard, the specification's discriminant
walk is strictly increasing, hence bounded below by the counter. -/
theorem specDiscrs_pairwise_lt :
    ∀ (ds : List (Option Nat)) (c : Nat), discrOk c ds = true →
      (specDiscrs c ds).Pairwise (· < ·) ∧ ∀ x ∈ specDiscrs c ds, c ≤ x := by
  intro ds
  induction ds with
  | nil => intro c _; simp [specDiscrs]
  | cons o rest ih =>
    intro c h
    cases o with
    | none =>
      unfold discrOk at h
      obtain ⟨hp, hb⟩ := ih (c + 1) h
      simp only [specDiscrs]
      constructor
      · refine List.pairwise_cons.mpr ⟨?_, hp⟩
        intro y hy
        exact lt_of_lt_of_le (Nat.lt_succ_self c) (hb y hy)
      · intro x hx
        rcases List.mem_cons.mp hx with rfl | hx'
        · exact le_refl x
        · exact le_trans (Nat.le_succ c) (hb x hx')
    | some n =>
      unfold discrOk at h
      rw [Bool.and_eq_true] at h
      obtain ⟨hcn, h⟩ := h
      have hcn' : c ≤ n := of_decide_eq_true hcn
      obtain ⟨hp, hb⟩ := ih (n + 1) h
      simp only [specDiscrs]
      constructor
      · refine List.pairwise_cons.mpr ⟨?_, hp⟩
        intro y hy
        exact lt_of_lt_of_le (Nat.lt_succ_self n) (hb y hy)
      · intro x hx
        rcases List.mem_cons.mp hx with rfl | hx'
        · exact hcn'
        · exact le_trans (le_trans hcn' (Nat.le_succ n)) (hb x hx')

/-- The attribute-scan fills nothing when no policy signal is present. -/
theorem scanTagPolicy_no_sig :
    ∀ (attrs : List EnumAttr) (acc : Option TlbPrefixPolicy),
      (∀ a ∈ attrs, isReprSig a = false ∧ isAssertSig a = false) →
      scanTagPolicy attrs acc = .ok acc := by
  intro attrs
  induction attrs with
  | nil => intro acc _; rfl
  | cons a rest ih =>
    intro acc h
    obtain ⟨h1, h2⟩ := h a (List.mem_cons_self a rest)
    have hrest := fun b hb => h b (List.mem_cons_of_mem a hb)
    cases a with
    | assertAttr s =>
      have hs : s ≠ "items_prefixes_nonoverlap" := by
        simpa [isAssertSig] using h2
      unfold scanTagPolicy
      rw [if_neg hs]
      exact ih acc hrest
    | reprAttr t => simp [isReprSig] at h1
    | otherAttr =>
      unfold scanTagPolicy
      exact ih acc hrest

/-- Once a policy is recorded, any further policy signal aborts the scan. -/
theorem scanTagPolicy_second_sig :
    ∀ (attrs : List EnumAttr) (p : TlbPrefixPolicy),
      (∃ a ∈ attrs, isReprSig a = true ∨ isAssertSig a = true) →
      ∃ msg, scanTagPolicy attrs (some p) = .error msg := by
  intro attrs
  induction attrs with
  | nil => rintro p ⟨a, ha, -⟩; exact absurd ha (List.not_mem_nil a)
  | cons a rest ih =>
    rintro p ⟨b, hb, hsig⟩
    cases a with
    | assertAttr s =>
      by_cases hs : s = "items_prefixes_nonoverlap"
      · refine ⟨"assertion failed: need_prefix.is_none()", ?_⟩
        unfold scanTagPolicy
        rw [if_pos hs]
      · rcases List.mem_cons.mp hb with rfl | hb'
        · simp [isReprSig, isAssertSig, hs] at hsig
        · obtain ⟨msg, hm⟩ := ih p ⟨b, hb', hsig⟩
          refine ⟨msg, ?_⟩
          unfold scanTagPolicy
          rw [if_neg hs]
          exact hm
    | reprAttr t =>
      exact ⟨"Two #[repr] attributes on enum are not supported", rfl⟩
    | otherAttr =>
      rcases List.mem_cons.mp hb with rfl | hb'
      · simp [isReprSig, isAssertSig] at hsig
      · obtain ⟨msg, hm⟩ := ih p ⟨b, hb', hsig⟩
        exact ⟨msg, hm⟩

/-- An attribute list containing both kinds of policy signal makes the
scan fail. -/
theorem scanTagPolicy_both :
    ∀ attrs : List EnumAttr,
      (∃ a ∈ attrs, isReprSig a = true) → (∃ b ∈ attrs, isAssertSig b = true) →
      ∃ msg, scanTagPolicy attrs none = .error msg := by
  intro attrs
  induction attrs with
  | nil => rintro ⟨a, ha, -⟩ _; exact absurd ha (List.not_mem_nil a)
  | cons a rest ih =>
    rintro ⟨b, hb, hbr⟩ ⟨d, hd, hda⟩
    cases a with
    | reprAttr t =>
      have hd' : d ∈ rest := by
        rcases List.mem_cons.mp hd with rfl | h
        · simp [isAssertSig] at hda
        · exact h
      obtain ⟨msg, hm⟩ := scanTagPolicy_second_sig rest (.wanted t) ⟨d, hd', Or.inr hda⟩
      exact ⟨msg, hm⟩
    | assertAttr s =>
      by_cases hs : s = "items_prefixes_nonoverlap"
      · have hb' : b ∈ rest := by
          rcases List.mem_cons.mp hb with rfl | h
          · simp [isReprSig] at hbr
          · exact h
        obtain ⟨msg, hm⟩ := scanTagPolicy_second_sig rest .notWanted ⟨b, hb', Or.inl hbr⟩
        refine ⟨msg, ?_⟩
        unfold scanTagPolicy
        rw [if_pos hs]
        exact hm
      · have hb' : b ∈ rest := by
          rcases List.mem_cons.mp hb with rfl | h
          · simp [isReprSig] at hbr
          · exact h
        have hd' : d ∈ rest := by
          rcases List.mem_cons.mp hd with rfl | h
          · simp [isAssertSig, hs] at hda
          · exact h
        obtain ⟨msg, hm⟩ := ih ⟨b, hb', hbr⟩ ⟨d, hd', hda⟩
        refine ⟨msg, ?_⟩
        unfold scanTagPolicy
        rw [if_neg hs]
        exact hm
    | otherAttr =>
      have hb' : b ∈ rest := by
        rcases List.mem_cons.mp hb with rfl | h
        · simp [isReprSig] at hbr
        · exact h
      have hd' : d ∈ rest := by
        rcases List.mem_cons.mp hd with rfl | h
        · simp [isAssertSig] at hda
        · exact h
      exact ih ⟨b, hb', hbr⟩ ⟨d, hd', hda⟩

/-- A variant whose explicit discriminant is an integer literal not
fitting `u64` never compiles. -/
theorem compileVariant_bad_discr (pfx : TlbPrefixPolicy) (c : Nat)
    {v : EnumVariant} {n : Nat}
    (hvd : v.discr = some (DiscrExpr.litInt n)) (hn : 2 ^ 64 ≤ n) :
    ∃ msg, compileVariant pfx c v = .error msg := by
  cases hl : v.layout with
  | none =>
    refine ⟨"serialization definition for variant " ++ v.vname ++ " is required", ?_⟩
    simp only [compileVariant, hl]
  | some l =>
    cases hcode : createSerializationCode l v.vfields false with
    | error e =>
      refine ⟨e, ?_⟩
      simp only [compileVariant, hl, hcode]
    | ok code =>
      cases code with
      | varuint =>
        refine ⟨"unreachable: varuint body requires self_ref", ?_⟩
        simp only [compileVariant, hl, hcode]
      | steps st =>
        have hdef : parseDiscr c v.discr
            = .error "called `Result::unwrap()` on an `Err` value" := by
          rw [hvd]
          have hif : parseDiscr c (some (.litInt n))
              = if n < 2 ^ 64 then .ok n
                else .error "called `Result::unwrap()` on an `Err` value" := rfl
          rw [hif, if_neg (by omega : ¬ n < 2 ^ 64)]
        refine ⟨"called `Result::unwrap()` on an `Err` value", ?_⟩
        simp only [compileVariant, hl, hcode, hdef]

/-- An enum containing a too-large explicit integer discriminant literal
never compiles. -/
theorem compileVariants_bad_lit (pfx : TlbPrefixPolicy) :
    ∀ (vs : List EnumVariant) (c : Nat),
      (∃ v ∈ vs, ∃ n, v.discr = some (DiscrExpr.litInt n) ∧ 2 ^ 64 ≤ n) →
      ∃ msg, compileVariants pfx c vs = .error msg := by
  intro vs
  induction vs with
  | nil => rintro c ⟨v, hv, -⟩; exact absurd hv (List.not_mem_nil v)
  | cons a rest ih =>
    rintro c ⟨v, hv, n, hvd, hn⟩
    rcases List.mem_cons.mp hv with rfl | hv'
    · obtain ⟨msg, hm⟩ := compileVariant_bad_discr pfx c hvd hn
      refine ⟨msg, ?_⟩
      unfold compileVariants
      rw [hm]
    · cases hcv : compileVariant pfx c a with
      | error e =>
        refine ⟨e, ?_⟩
        unfold compileVariants
        rw [hcv]
      | ok pr =>
        obtain ⟨p, nxt⟩ := pr
        obtain ⟨msg, hm⟩ := ih nxt ⟨v, hv', n, hvd, hn⟩
        refine ⟨msg, ?_⟩
        simp only [compileVariants, hcv, hm]

/-- Whole-enum version of `compileVariants_bad_lit`. -/
theorem enum_bad_lit (e : EnumDesc)
    (h : ∃ v ∈ e.variants, ∃ n, v.discr = some (DiscrExpr.litInt n) ∧ 2 ^ 64 ≤ n) :
    ∃ msg, tlbEnumSerializable e = .error msg := by
  cases hd : determineTagPolicy e.attrs with
  | error m => exact ⟨m, by unfold tlbEnumSerializable; rw [hd]⟩
  | ok pfx =>
    obtain ⟨msg, hm⟩ := compileVariants_bad_lit pfx e.variants 0 h
    refine ⟨msg, ?_⟩
    simp only [tlbEnumSerializable, hd, hm]

/-- A non-literal discriminant expression compiles exactly like an absent
one: `parseDiscr` ignores it. -/
theorem compileVariant_nonlit (pfx : TlbPrefixPolicy) (c : Nat) (nm : String)
    (f : Fields) (lay : Option String) :
    compileVariant pfx c ⟨nm, f, some DiscrExpr.nonLit, lay⟩
      = compileVariant pfx c ⟨nm, f, none, lay⟩ := by
  cases lay with
  | none => rfl
  | some l => rfl

/-- Replacing a non-literal discriminant expression by no discriminant at
all leaves the whole variant-list compilation unchanged. -/
theorem compileVariants_nonlit (pfx : TlbPrefixPolicy) :
    ∀ (pre : List EnumVariant) (c : Nat) (nm : String) (f : Fields)
      (lay : Option String) (post : List EnumVariant),
      compileVariants pfx c (pre ++ ⟨nm, f, some DiscrExpr.nonLit, lay⟩ :: post)
        = compileVariants pfx c (pre ++ ⟨nm, f, none, lay⟩ :: post) := by
  intro pre
  induction pre with
  | nil =>
    intro c nm f lay post
    simp only [List.nil_append]
    unfold compileVariants
    rw [compileVariant_nonlit]
  | cons a pre ih =>
    intro c nm f lay post
    simp only [List.cons_append]
    cases hcv : compileVariant pfx c a with
    | error e => simp only [compileVariants, hcv]
    | ok pr =>
      obtain ⟨p, nxt⟩ := pr
      simp only [compileVariants, hcv, ih nxt nm f lay post]

/-- Whole-enum version of `compileVariants_nonlit`. -/
theorem enum_nonlit_ignored (attrs : List EnumAttr) (pre post : List EnumVariant)
    (nm : String) (f : Fields) (lay : Option String) :
    tlbEnumSerializable ⟨attrs, pre ++ ⟨nm, f, some DiscrExpr.nonLit, lay⟩ :: post⟩
      = tlbEnumSerializable ⟨attrs, pre ++ ⟨nm, f, none, lay⟩ :: post⟩ := by
  rw [tlbEnumSerializable_mk, tlbEnumSerializable_mk]
  cases hd : determineTagPolicy attrs with
  | error m => rfl
  | ok pfx => simp only [compileVariants_nonlit]

/-! ## Claim theorems -/

/-- C5: For every unsigned value `v < 2^120`, the VarUint (Coins)
serializer returns exactly `["u b 4bit", "u v (8*b)bit"]` where `b` is the
smallest byte count with `v < 256^b` (so `v = 0` yields
`["u 0 4bit", "u 0 0bit"]`), and for every `v ≥ 256^15` the encoding
fails fatally. -/
theorem varuint_minimal_bytes (value : Nat) (env : String → List String)
    (h : value < 2 ^ 128) :
    (value < 2 ^ 120 →
      tlbSerializableImpl "__fundamental_varuint16" (.unnamed 1) ⟨value, env⟩
          = .ok ["u " ++ toString (bytesRequired value) ++ " 4bit",
                 "u " ++ toString value ++ " "
                   ++ toString (bytesRequired value * 8) ++ "bit"]
        ∧ value < 256 ^ bytesRequired value
        ∧ ∀ b, value < 256 ^ b → bytesRequired value ≤ b)
    ∧ (2 ^ 120 ≤ value →
      tlbSerializableImpl "__fundamental_varuint16" (.unnamed 1) ⟨value, env⟩
          = .error "VarUint16 overflow") := by
  have hcode : tlbSerializableImpl "__fundamental_varuint16" (.unnamed 1) ⟨value, env⟩
      = varuintDirectives value := rfl
  have h15 : bytesRequired value ≤ 15 ↔ value < 2 ^ 120 := by
    have hiff := bytesRequired_le_iff h 15
    have he : (256:ℕ) ^ 15 = 2 ^ 120 := by norm_num
    rw [he] at hiff
    exact hiff
  constructor
  · intro hv
    refine ⟨?_, ?_, ?_⟩
    · rw [hcode]
      unfold varuintDirectives
      rw [if_pos (h15.mpr hv)]
    · exact (bytesRequired_le_iff h _).mp le_rfl
    · intro b hb
      exact (bytesRequired_le_iff h b).mpr hb
  · intro hv
    rw [hcode]
    unfold varuintDirectives
    rw [if_neg (fun hc => absurd (h15.mp hc) (by omega))]

theorem varuint_minimal_bytes_witness :
    tlbSerializableImpl "__fundamental_varuint16" (.unnamed 1) ⟨0, fun _ => []⟩
      = .ok ["u 0 4bit", "u 0 0bit"] := by
  have h := ((varuint_minimal_bytes 0 (fun _ => []) (by norm_num)).1 (by norm_num)).1
  exact h.trans rfl

/-- C4: For every product type, `serialize` returns exactly the
concatenation, in declared layout-segment order, of one verbatim literal
directive per literal segment and the full recursively-produced sequence
of the referenced field for each field-reference segment; nothing is
reordered, deduplicated or interleaved, and empty segments contribute
nothing (the step list is the in-order `filterMap` of the trimmed
segments). -/
theorem struct_serialize_concat (attr : String) (fields : List String)
    (v : RValue) (steps : List Step)
    (hc : createSerializationCode attr (.named fields) true = .ok (.steps steps)) :
    tlbSerializableImpl attr (.named fields) v = .ok (planOut v.env steps)
    ∧ steps = (splitOnComma attr).filterMap (fun p => segStep fields (trimStr p)) := by
  constructor
  · have himpl : tlbSerializableImpl attr (.named fields) v
        = .ok (execSteps v.env [] steps) := by
      simp only [tlbSerializableImpl, hc, runCode]
    rw [himpl, execSteps_eq]
    simp
  · unfold createSerializationCode at hc
    by_cases hm : attr = "__fundamental_varuint16"
    · rw [if_pos hm] at hc
      exact Except.noConfusion hc
    · rw [if_neg hm] at hc
      cases hcs : compileSegments fields (splitOnComma attr) with
      | error e => simp only [hcs] at hc; exact Except.noConfusion hc
      | ok st =>
        simp only [hcs] at hc
        injection hc with hc
        injection hc with hc
        subst hc
        exact compileSegments_filterMap fields (splitOnComma attr) st hcs

theorem struct_serialize_concat_witness :
    tlbSerializableImpl "grams, u 0 1bit" (.named ["grams"])
        ⟨0, fun _ => ["u 0 4bit", "u 0 0bit"]⟩
      = .ok ["u 0 4bit", "u 0 0bit", "u 0 1bit"] := by
  have h := (struct_serialize_concat "grams, u 0 1bit" ["grams"]
      ⟨0, fun _ => ["u 0 4bit", "u 0 0bit"]⟩
      [.appendField "grams", .pushLit "u 0 1bit"] rfl).1
  exact h.trans rfl

/-- C8 counterexample: an unresolved field name does fail compilation, but
the failure message is the generic std `HashMap` indexing message
`"no entry found for key"`, which does not contain the missing field's
name — refuting "the failure message names the missing field". -/
theorem unknown_field_message_cex :
    tlbSerializableImpl "bad_name" (.named ["a"]) ⟨0, fun _ => []⟩
      = .error "no entry found for key"
    ∧ strContains "no entry found for key" "bad_name" = false :=
  ⟨rfl, rfl⟩

/-- C8 (amended): a layout containing a field-reference segment matching
no declared field fails compilation fatally, with the generic message
`"no entry found for key"` (which does not name the field). -/
theorem unknown_field_fatal_generic_message
    (attr : String) (fields : List String) (v : RValue) (part : String)
    (hattr : attr ≠ "__fundamental_varuint16")
    (hin : part ∈ splitOnComma attr)
    (hne : trimStr part ≠ "")
    (hu : startsWithStr (trimStr part) "u " = false)
    (hnf : trimStr part ∉ fields) :
    tlbSerializableImpl attr (.named fields) v = .error "no entry found for key" := by
  have hcs := compileSegments_bad fields (splitOnComma attr) ⟨part, hin, hne, hu, hnf⟩
  have hcode : createSerializationCode attr (.named fields) true
      = .error "no entry found for key" := by
    simp only [createSerializationCode, if_neg hattr, hcs]
  simp only [tlbSerializableImpl, hcode]

theorem unknown_field_fatal_generic_message_witness :
    tlbSerializableImpl "u 1 1bit, missing" (.named ["present"]) ⟨0, echoEnv⟩
      = .error "no entry found for key" :=
  unknown_field_fatal_generic_message "u 1 1bit, missing" ["present"] ⟨0, echoEnv⟩
    " missing" (by decide) (by decide) (by decide) (by decide) (by decide)

/-- C9 counterexample: the segment `"u notanumber"` is not a well-formed
literal-emission segment `u <integer-value> <width>bit` and names no
field, yet the layout parser accepts it (pushing it verbatim) instead of
rejecting it — refuting "every malformed segment is detected and
rejected". -/
theorem malformed_segment_accepted_cex :
    wellFormedLiteralSegment "u notanumber" = false
    ∧ "u notanumber" ∉ ([] : List String)
    ∧ createSerializationCode "u notanumber" (.named []) true
        = .ok (.steps [.pushLit "u notanumber"])
    ∧ tlbSerializableImpl "u notanumber" (.named []) ⟨0, fun _ => []⟩
        = .ok ["u notanumber"] :=
  ⟨rfl, by simp, rfl, rfl⟩

/-- C9 (amended): the layout parser performs no validation of literal
segments: a layout compiles successfully iff every trimmed segment is
empty, starts with the marker `"u "` (accepted verbatim, well-formed or
not), or names a declared field; only the remaining segments are rejected,
as unresolved field names. -/
theorem segment_acceptance_characterization
    (attr : String) (fields : List String)
    (hattr : attr ≠ "__fundamental_varuint16") :
    (∃ code, createSerializationCode attr (.named fields) true = .ok code)
      ↔ ∀ p ∈ splitOnComma attr,
          trimStr p = "" ∨ startsWithStr (trimStr p) "u " = true
            ∨ trimStr p ∈ fields := by
  have h := compileSegments_ok_iff fields (splitOnComma attr)
  constructor
  · rintro ⟨code, hcode⟩
    apply h.mp
    cases hcs : compileSegments fields (splitOnComma attr) with
    | ok st => exact ⟨st, rfl⟩
    | error e =>
      exfalso
      rw [show createSerializationCode attr (.named fields) true = .error e from by
        simp only [createSerializationCode, if_neg hattr, hcs]] at hcode
      exact Except.noConfusion hcode
  · intro hall
    obtain ⟨steps, hs⟩ := h.mpr hall
    exact ⟨.steps steps, by simp only [createSerializationCode, if_neg hattr, hs]⟩

theorem segment_acceptance_characterization_witness :
    ∃ code, createSerializationCode "u 4 3bit, workchain" (.named ["workchain"]) true
        = .ok code :=
  (segment_acceptance_characterization "u 4 3bit, workchain" ["workchain"]
      (by decide)).mpr (by decide)

/-- C1: For every sum type compiled under the `Wanted(width)` policy
(declared via a `#[repr]` integer type whose token string drops to the
decimal width) and every variant, the first directive of `serialize` is a
literal encoding that variant's discriminant in exactly `width` bits,
placed ahead of all directives produced from the variant's own layout. -/
theorem enum_wanted_tag_first_directive
    (e : EnumDesc) (r : String) (w : Nat) (plans : List VariantPlan)
    (i : Nat) (v : EnumVariant) (p : VariantPlan) (env : String → List String)
    (hc : tlbEnumSerializable e = .ok (.wanted r, plans))
    (hw : strDrop1 r = toString w)
    (hv : e.variants.get? i = some v)
    (hp : plans.get? i = some p) :
    serializeEnum (.wanted r) plans i env
      = some (("u " ++ toString p.discr ++ " " ++ toString w ++ "bit")
                :: planOut env p.steps)
    ∧ ∃ l, v.layout = some l ∧
        createSerializationCode l v.vfields false = .ok (.steps p.steps) := by
  obtain ⟨-, hcv⟩ := tlbEnum_ok hc
  refine ⟨?_, compileVariants_layout _ _ _ _ hcv i v p hv hp⟩
  have harm : serializeEnumVariant (.wanted r) p env
      = ("u " ++ toString p.discr ++ " " ++ toString w ++ "bit")
          :: planOut env p.steps := by
    simp only [serializeEnumVariant, storeTag]
    rw [execSteps_eq]
    simp [planOut, hw]
  unfold serializeEnum
  rw [hp]
  simp [harm]

theorem enum_wanted_tag_first_directive_witness :
    serializeEnum (.wanted "u32")
        [⟨0, [.pushLit "u 0 16bit"]⟩, ⟨0xb5eec792, []⟩] 0 echoEnv
      = some ["u 0 32bit", "u 0 16bit"] := by
  have h := (enum_wanted_tag_first_directive bocDesc "u32" 32
      [⟨0, [.pushLit "u 0 16bit"]⟩, ⟨0xb5eec792, []⟩] 0
      ⟨"Empty", .named [], some (.litInt 0), some "u 0 16bit"⟩
      ⟨0, [.pushLit "u 0 16bit"]⟩ echoEnv rfl rfl rfl rfl).1
  exact h.trans rfl

/-- C2: For every sum type that compiles, the discriminants assigned
during the declaration-order walk follow the specification's rule: 0 for
the first variant with no explicit literal, the explicit literal value
where present (resetting the counter), and previous discriminant plus one
otherwise. -/
theorem enum_discriminant_assignment (e : EnumDesc) (pfx : TlbPrefixPolicy)
    (plans : List VariantPlan)
    (hc : tlbEnumSerializable e = .ok (pfx, plans)) :
    plans.map VariantPlan.discr
      = specDiscrs 0 (e.variants.map (fun v => discrLit v.discr)) := by
  obtain ⟨-, hcv⟩ := tlbEnum_ok hc
  exact compileVariants_discrs pfx e.variants 0 plans hcv

theorem enum_discriminant_assignment_witness :
    ([⟨0, [Step.pushLit "u 0 16bit"]⟩, ⟨0xb5eec792, []⟩] : List VariantPlan).map
        VariantPlan.discr
      = specDiscrs 0 [some 0, some 0xb5eec792] := by
  have h := enum_discriminant_assignment bocDesc (.wanted "u32")
      [⟨0, [.pushLit "u 0 16bit"]⟩, ⟨0xb5eec792, []⟩] rfl
  exact h.trans rfl

/-- C3 counterexample: a `Wanted`-policy sum type whose second variant
carries the explicit discriminant literal 0 compiles successfully with
discriminants `[0, 0]` — the generator checks no uniqueness, refuting
"the discriminant values are pairwise distinct". -/
theorem enum_discriminant_collision_cex :
    tlbEnumSerializable collideDesc = .ok (.wanted "u8", [⟨0, []⟩, ⟨0, []⟩])
    ∧ ¬ ([0, 0] : List Nat).Pairwise (· ≠ ·) := by
  refine ⟨rfl, ?_⟩
  intro h
  exact (List.pairwise_cons.mp h).1 0 (by simp) rfl

/-- C3 (amended): the generator never checks uniqueness; the assigned
discriminants are pairwise distinct provided every explicit discriminant
literal is at least the running counter at its variant (in particular
whenever no variant carries an explicit literal); otherwise colliding
assignments are produced without complaint. -/
theorem enum_discriminant_distinct_of_monotone
    (e : EnumDesc) (r : String) (plans : List VariantPlan)
    (hc : tlbEnumSerializable e = .ok (.wanted r, plans))
    (hok : discrOk 0 (e.variants.map (fun v => discrLit v.discr)) = true) :
    (plans.map VariantPlan.discr).Pairwise (· ≠ ·) := by
  obtain ⟨-, hcv⟩ := tlbEnum_ok hc
  rw [compileVariants_discrs _ _ _ _ hcv]
  exact ((specDiscrs_pairwise_lt _ 0 hok).1).imp (fun h => Nat.ne_of_lt h)

theorem enum_discriminant_distinct_of_monotone_witness :
    (([⟨0, [Step.pushLit "u 0 16bit"]⟩, ⟨0xb5eec792, []⟩] : List VariantPlan).map
        VariantPlan.discr).Pairwise (· ≠ ·) :=
  enum_discriminant_distinct_of_monotone bocDesc "u32"
    [⟨0, [.pushLit "u 0 16bit"]⟩, ⟨0xb5eec792, []⟩] rfl (by decide)

/-- C6: For every sum type compiled under the `NotWanted` policy (declared
via the `items_prefixes_nonoverlap` assertion) and every variant,
`serialize` emits no auto-injected discriminant directive: the output is
exactly the directives produced from that variant's own declared layout. -/
theorem enum_notwanted_no_tag
    (e : EnumDesc) (plans : List VariantPlan) (i : Nat) (v : EnumVariant)
    (p : VariantPlan) (env : String → List String)
    (hc : tlbEnumSerializable e = .ok (.notWanted, plans))
    (hv : e.variants.get? i = some v)
    (hp : plans.get? i = some p) :
    serializeEnum .notWanted plans i env = some (planOut env p.steps)
    ∧ ∃ l, v.layout = some l ∧
        createSerializationCode l v.vfields false = .ok (.steps p.steps) := by
  obtain ⟨-, hcv⟩ := tlbEnum_ok hc
  refine ⟨?_, compileVariants_layout _ _ _ _ hcv i v p hv hp⟩
  have harm : serializeEnumVariant .notWanted p env = planOut env p.steps := by
    simp only [serializeEnumVariant, storeTag]
    rw [execSteps_eq]
    simp
  unfold serializeEnum
  rw [hp]
  simp [harm]

theorem enum_notwanted_no_tag_witness :
    serializeEnum .notWanted [⟨0, [.pushLit "u 0 1bit", .appendField "x"]⟩] 0 echoEnv
      = some ["u 0 1bit", "x"] := by
  have h := (enum_notwanted_no_tag nonoverlapDesc
      [⟨0, [.pushLit "u 0 1bit", .appendField "x"]⟩] 0
      ⟨"int_msg_info", .named ["x"], none, some "u 0 1bit, x"⟩
      ⟨0, [.pushLit "u 0 1bit", .appendField "x"]⟩ echoEnv rfl rfl rfl).1
  exact h.trans rfl

/-- C7: A sum type declaring neither a `#[repr]` encoding width nor the
no-overlap assertion, or declaring at least one of each, fails the enum
serializer generator at compile time. -/
theorem tag_policy_signal_required (e : EnumDesc)
    (h : ((∀ a ∈ e.attrs, isReprSig a = false) ∧ (∀ a ∈ e.attrs, isAssertSig a = false))
       ∨ ((∃ a ∈ e.attrs, isReprSig a = true) ∧ (∃ a ∈ e.attrs, isAssertSig a = true))) :
    ∃ msg, tlbEnumSerializable e = .error msg := by
  have hdet : ∃ msg, determineTagPolicy e.attrs = .error msg := by
    rcases h with ⟨h1, h2⟩ | ⟨h1, h2⟩
    · refine ⟨"Don't know how to differentiate tags of the enum", ?_⟩
      unfold determineTagPolicy
      rw [scanTagPolicy_no_sig e.attrs none (fun a ha => ⟨h1 a ha, h2 a ha⟩)]
    · obtain ⟨msg, hm⟩ := scanTagPolicy_both e.attrs h1 h2
      exact ⟨msg, by unfold determineTagPolicy; rw [hm]⟩
  obtain ⟨msg, hm⟩ := hdet
  refine ⟨msg, ?_⟩
  unfold tlbEnumSerializable
  rw [hm]

theorem tag_policy_signal_required_witness :
    ∃ msg, tlbEnumSerializable ⟨[], []⟩ = .error msg :=
  tag_policy_signal_required ⟨[], []⟩ (Or.inl ⟨by simp, by simp⟩)

/-- C10: An explicit discriminant that is an integer literal not fitting
`u64` makes compilation fail, while any non-literal discriminant
expression is silently ignored — the enum compiles exactly as if that
variant carried no discriminant, so it receives the auto-incremented
counter value. -/
theorem discriminant_literal_handling :
    (∀ e : EnumDesc,
        (∃ v ∈ e.variants, ∃ n, v.discr = some (DiscrExpr.litInt n) ∧ 2 ^ 64 ≤ n) →
        ∃ msg, tlbEnumSerializable e = .error msg)
    ∧ ∀ (attrs : List EnumAttr) (pre post : List EnumVariant) (nm : String)
        (f : Fields) (lay : Option String),
        tlbEnumSerializable ⟨attrs, pre ++ ⟨nm, f, some DiscrExpr.nonLit, lay⟩ :: post⟩
          = tlbEnumSerializable ⟨attrs, pre ++ ⟨nm, f, none, lay⟩ :: post⟩ :=
  ⟨enum_bad_lit, enum_nonlit_ignored⟩

theorem discriminant_literal_handling_witness :
    (∃ msg, tlbEnumSerializable hugeLitDesc = .error msg)
    ∧ tlbEnumSerializable
          ⟨[.reprAttr "u8"], [⟨"A", .named [], some DiscrExpr.nonLit, some ""⟩]⟩
        = tlbEnumSerializable ⟨[.reprAttr "u8"], [⟨"A", .named [], none, some ""⟩]⟩ := by
  constructor
  · exact discriminant_literal_handling.1 hugeLitDesc
      ⟨⟨"A", .named [], some (.litInt (2 ^ 64)), some ""⟩, by simp [hugeLitDesc],
       2 ^ 64, rfl, le_rfl⟩
  · exact discriminant_literal_handling.2 [.reprAttr "u8"] [] [] "A" (.named []) (some "")
